import Mathlib

set_option maxHeartbeats 1000000

/-!
Verification of `src/strategies.py` (the `CompressorEngine` and its helper
heuristics) against its specification.

The chess library consumed by the source (board representation, legal-move
generation, attack sets, make/unmake) is external to the repository.  It is
modelled by the abstract capability interface `GameAPI`, which provides
exactly the surface the source code uses: legal-move enumeration, side to
move, piece-type lookup, piece/attack square sets, a capture test and a
(pure) push.  The in-place `push`/`pop` discipline of the Python code is
rendered by `push` returning the successor position, which is faithful
because every `push` in the source is matched by a `pop` before any further
use of the board.

Machine integers: Python integers are unbounded, so scores are modelled by
`Int` directly; `x << n` on Python ints is `x * 2 ^ n` (also for negative
`x`).
-/

/-- A python-chess move as the source consumes it: from-square, to-square,
and optional promotion piece type (`move.promotion` is `None` or a piece
type). -/
structure ChessMove where
  fromSq : Nat
  toSq : Nat
  promotion : Option Nat
deriving DecidableEq, Repr

/-- `(move.promotion or 0)` from the source. -/
def promoVal (m : ChessMove) : Nat := m.promotion.getD 0

/-- The capability surface of `chess.Board` used by `strategies.py`.
`turn` is `true` for White (`chess.WHITE = True`); `pieces pt color` is
`board.pieces(pt, color)`; `attacks sq` is `board.attacks(sq)`;
`pieceTypeAt` is `board.piece_type_at` (with `0` playing Python's `None`,
which the source never feeds to arithmetic on legal moves). -/
structure GameAPI (B : Type) where
  legalMoves : B → List ChessMove
  turn : B → Bool
  pieceTypeAt : B → Nat → Nat
  pieces : B → Nat → Bool → Finset Nat
  attacks : B → Nat → Finset Nat
  isCapture : B → ChessMove → Bool
  push : B → ChessMove → B

/-- `PSQT[chess.PAWN]` from the source. -/
def pawnTable : List Int :=
  [ 0,  0,  0,  0,  0,  0,  0,  0,
   50, 50, 50, 50, 50, 50, 50, 50,
   10, 10, 20, 30, 30, 20, 10, 10,
    5,  5, 10, 25, 25, 10,  5,  5,
    0,  0,  0, 20, 21,  0,  0,  0,
    5, -5,-10,  0,  0,-10, -5,  5,
    5, 10, 10,-31,-31, 10, 10,  5,
    0,  0,  0,  0,  0,  0,  0,  0]

/-- `PSQT[chess.KNIGHT]` from the source. -/
def knightTable : List Int :=
  [-50,-40,-30,-30,-30,-30,-40,-50,
   -40,-20,  0,  0,  0,  0,-20,-40,
   -30,  0, 10, 15, 15, 10,  0,-30,
   -30,  5, 15, 20, 20, 15,  5,-30,
   -30,  0, 15, 20, 20, 15,  0,-30,
   -30,  5, 10, 15, 15, 11,  5,-30,
   -40,-20,  0,  5,  5,  0,-20,-40,
   -50,-40,-30,-30,-30,-30,-40,-50]

/-- `PSQT[chess.BISHOP]` from the source. -/
def bishopTable : List Int :=
  [-20,-10,-10,-10,-10,-10,-10,-20,
   -10,  0,  0,  0,  0,  0,  0,-10,
   -10,  0,  5, 10, 10,  5,  0,-10,
   -10,  5,  5, 10, 10,  5,  5,-10,
   -10,  0, 10, 10, 10, 10,  0,-10,
   -10, 10, 10, 10, 10, 10, 10,-10,
   -10,  5,  0,  0,  0,  0,  5,-10,
   -20,-10,-10,-10,-10,-10,-10,-20]

/-- `PSQT[chess.ROOK]` from the source. -/
def rookTable : List Int :=
  [  0,  0,  0,  0,  0,  0,  0,  0,
     5, 10, 10, 10, 10, 10, 10,  5,
    -5,  0,  0,  0,  0,  0,  0, -5,
    -5,  0,  0,  0,  0,  0,  0, -5,
    -5,  0,  0,  0,  0,  0,  0, -5,
    -5,  0,  0,  0,  0,  0,  0, -5,
    -5,  0,  0,  0,  0,  0,  0, -5,
     0,  0,  0,  5,  5,  0,  0,  0]

/-- `PSQT[chess.QUEEN]` from the source. -/
def queenTable : List Int :=
  [-20,-10,-10, -5, -5,-10,-10,-20,
   -10,  0,  0,  0,  0,  0,  0,-10,
   -10,  0,  5,  5,  5,  5,  0,-10,
    -5,  0,  5,  5,  5,  5,  0, -5,
     0,  0,  5,  5,  5,  5,  0, -5,
   -10,  5,  5,  5,  5,  5,  0,-10,
   -10,  0,  5,  0,  0,  0,  0,-10,
   -20,-10,-10, -5, -5,-10,-10,-20]

/-- `PSQT[chess.KING]` from the source. -/
def kingTable : List Int :=
  [-30,-40,-40,-50,-50,-40,-40,-30,
   -30,-40,-40,-50,-50,-40,-40,-30,
   -30,-40,-40,-50,-50,-40,-40,-30,
   -30,-40,-40,-50,-50,-40,-40,-30,
   -20,-30,-30,-40,-40,-30,-30,-20,
   -10,-20,-20,-20,-20,-20,-20,-10,
    20, 20,  0,  0,  0,  0, 20, 20,
     1, 30, 10,  0,  0, 10, 30,  2]

/-- The `PSQT` dict, keyed by the piece-type constants
`chess.PAWN = 1 … chess.KING = 6`.  A key outside the dict raises in
Python; the totalization to `[]` is only ever read through `psqtAt` below
under in-domain hypotheses. -/
def PSQT : Nat → List Int
  | 1 => pawnTable
  | 2 => knightTable
  | 3 => bishopTable
  | 4 => rookTable
  | 5 => queenTable
  | 6 => kingTable
  | _ => []

/-- `PSQT[piece_type][idx]`.  Out-of-range indices raise in Python; they are
totalized to `0` here, and every theorem restricts to the defined domain
(piece types 1–6, squares 0–63). -/
def psqtAt (pt sq : Nat) : Int := (PSQT pt).getD sq 0

/-- `chess.square_mirror` from python-chess: `square ^ 0x38`. -/
def square_mirror (sq : Nat) : Nat := sq ^^^ 56

/-- `_piece_value(color, piece_type, square)` from the source:
`PSQT[piece_type][square if color == chess.BLACK else chess.square_mirror(square)]`
(`chess.BLACK = False`). -/
def piece_value (color : Bool) (pieceType sq : Nat) : Int :=
  psqtAt pieceType (if color = false then sq else square_mirror sq)

/-- `_move_value(board, move)` from the source. -/
def move_value {B : Type} (g : GameAPI B) (b : B) (m : ChessMove) : Int :=
  piece_value (g.turn b) (g.pieceTypeAt b m.fromSq) m.toSq
    - piece_value (g.turn b) (g.pieceTypeAt b m.fromSq) m.fromSq

/-- `_pawn_attacks(board, move)` from the source:
`6` if `board.pieces(chess.PAWN, not board.turn) & board.attacks(move.to_square)`
is empty, else `5 - board.piece_type_at(move.from_square)`. -/
def pawn_attacks {B : Type} (g : GameAPI B) (b : B) (m : ChessMove) : Int :=
  if g.pieces b 1 (!g.turn b) ∩ g.attacks b m.toSq = ∅ then 6
  else 5 - (g.pieceTypeAt b m.fromSq : Int)

/-- `_score_move(board, move)` from the source (`x << n` is `x * 2 ^ n`). -/
def score_move {B : Type} (g : GameAPI B) (b : B) (m : ChessMove) : Int :=
  (promoVal m : Int) * 2 ^ 26
    + (if g.isCapture b m then 1 else 0) * 2 ^ 25
    + pawn_attacks g b m * 2 ^ 22
    + (512 + move_value g b m * 2 ^ 12)
    + (m.toSq : Int) * 2 ^ 6
    + (m.fromSq : Int)

/-- `INF = int(10**32)` from the source. -/
def INF : Int := 10 ^ 32

/-- `NEG_INF = -int(10**32)` from the source. -/
def NEG_INF : Int := -(10 ^ 32)

/-- `_score_board(board)` from the source:
`max((_score_move(board, m) for m in board.legal_moves), default=NEG_INF)`. -/
def score_board {B : Type} (g : GameAPI B) (b : B) : Int :=
  match g.legalMoves b with
  | [] => NEG_INF
  | m :: ms => ms.foldl (fun acc x => max acc (score_move g b x)) (score_move g b m)

/-- Section of the position domain actually reachable from python-chess:
every legal move has genuine board squares, a moving piece of type 1–6 on
its from-square, and a promotion that is absent or a genuine piece type
(never `some 0`, and at most queen-rank 5). -/
def ChessLike {B : Type} (g : GameAPI B) : Prop :=
  ∀ b : B, ∀ m ∈ g.legalMoves b,
    m.fromSq < 64 ∧ m.toSq < 64 ∧
    1 ≤ g.pieceTypeAt b m.fromSq ∧ g.pieceTypeAt b m.fromSq ≤ 6 ∧
    promoVal m ≤ 5 ∧ m.promotion ≠ some 0

instance {B : Type} (g : GameAPI B) [Fintype B] [DecidableEq B] :
    Decidable (ChessLike g) := by
  unfold ChessLike; infer_instance

/-- The maximizing-node loop body of `CompressorEngine._ab_search._recur`:
iterate over the legal moves with running `(best_move, best_val)`, raise
`alpha` to `max(best_val, alpha)` after each child, and break when
`beta < s` for the just-returned child value `s`.  The class counter
`CompressorEngine.move_counter` is threaded explicitly: `c + 1` is the
`move_counter += 1` executed right before each `push`.  `child` is the
recursive call at `depth - 1` on the pushed board, returning the child
value and the counter after the child. -/
def abMaxLoop {B : Type} (pushF : ChessMove → B)
    (child : B → Int → Int → Nat → Int × Nat) :
    List ChessMove → ChessMove → Int → Int → Int → Nat → (ChessMove × Int) × Nat
  | [], bm, bv, _, _, c => ((bm, bv), c)
  | m :: ms, bm, bv, alpha, beta, c =>
    let r := child (pushF m) alpha beta (c + 1)
    let bv2 := if bv < r.1 then r.1 else bv
    let bm2 := if bv < r.1 then m else bm
    let alpha2 := max bv2 alpha
    if beta < r.1 then ((bm2, bv2), r.2)
    else abMaxLoop pushF child ms bm2 bv2 alpha2 beta r.2

/-- The minimizing-node loop body of `CompressorEngine._ab_search._recur`:
lower `beta` to `min(best_val, beta)` after each child and break when
`s <= alpha`. -/
def abMinLoop {B : Type} (pushF : ChessMove → B)
    (child : B → Int → Int → Nat → Int × Nat) :
    List ChessMove → ChessMove → Int → Int → Int → Nat → (ChessMove × Int) × Nat
  | [], bm, bv, _, _, c => ((bm, bv), c)
  | m :: ms, bm, bv, alpha, beta, c =>
    let r := child (pushF m) alpha beta (c + 1)
    let bv2 := if r.1 < bv then r.1 else bv
    let bm2 := if r.1 < bv then m else bm
    let beta2 := min bv2 beta
    if r.1 ≤ alpha then ((bm2, bv2), r.2)
    else abMinLoop pushF child ms bm2 bv2 alpha beta2 r.2

/-- `_recur(depth, board, maximize, alpha, beta)` from
`CompressorEngine._ab_search`, with the class counter threaded as the last
argument.  `depth <= 0` returns
`(None, NEG_INF if no legal moves else _score_board(board))`; an interior
node with no legal moves returns `(None, NEG_INF)`; otherwise
`best_move, best_val = legal_moves[0], ∓INF` and the node loops over
`legal_moves`. -/
def ab_recur {B : Type} (g : GameAPI B) :
    Nat → B → Bool → Int → Int → Nat → (Option ChessMove × Int) × Nat
  | 0, b, _, _, _, c =>
    ((none, if g.legalMoves b = [] then NEG_INF else score_board g b), c)
  | d + 1, b, true, alpha, beta, c =>
    match g.legalMoves b with
    | [] => ((none, NEG_INF), c)
    | m0 :: rest =>
      let r := abMaxLoop (g.push b)
        (fun b2 a2 b3 c2 =>
          let q := ab_recur g d b2 false a2 b3 c2
          (q.1.2, q.2))
        (m0 :: rest) m0 NEG_INF alpha beta c
      ((some r.1.1, r.1.2), r.2)
  | d + 1, b, false, alpha, beta, c =>
    match g.legalMoves b with
    | [] => ((none, NEG_INF), c)
    | m0 :: rest =>
      let r := abMinLoop (g.push b)
        (fun b2 a2 b3 c2 =>
          let q := ab_recur g d b2 true a2 b3 c2
          (q.1.2, q.2))
        (m0 :: rest) m0 INF alpha beta c
      ((some r.1.1, r.1.2), r.2)

/-- The value component of the alpha-beta search. -/
def abVal {B : Type} (g : GameAPI B) (d : Nat) (b : B) (maxi : Bool)
    (alpha beta : Int) : Int :=
  ((ab_recur g d b maxi alpha beta 0).1).2

/-- The number of counter increments (one per `board.push`) a root search
`_recur(d, board, True, NEG_INF, INF)` performs when started with the class
counter at `0`. -/
def abPushes {B : Type} (g : GameAPI B) (d : Nat) (b : B) : Nat :=
  (ab_recur g d b true NEG_INF INF 0).2

/-- Insertion step of a stable descending sort: the new element goes in
front of the first already-placed element whose key is `≤` its own, hence
after every earlier element with an equal key. -/
def insertDesc (key : ChessMove → Int) (m : ChessMove) :
    List ChessMove → List ChessMove
  | [] => [m]
  | x :: xs => if key x ≤ key m then m :: x :: xs else x :: insertDesc key m xs

/-- `sorted(moves, key=..., reverse=True)` from the source.  Python's sort
is stable also under `reverse=True` (ties keep their original relative
order), and the output of a stable descending sort is uniquely determined
by the key, so this insertion sort computes exactly the same list. -/
def sortDesc (key : ChessMove → Int) : List ChessMove → List ChessMove
  | [] => []
  | x :: xs => insertDesc key x (sortDesc key xs)

/-- `CompressorEngine.search`, the search controller.  The module
configuration constants `RANDOM` and `MAX_DEPTH` are passed as parameters
(`DEBUG = False` guards only prints); `ridx` is the oracle choosing which
element `random.choice` picks; `c` is the class counter
`CompressorEngine.move_counter` on entry.  The result is the outcome
(Python exceptions become `Except.error`; the chosen move may be absent,
as `PlayResult(None, ...)` is accepted), the counter after the call, and
the value printed by the `NUM MOVES EVALUATED` line when it is reached.
`random.choice` of an empty sequence and `sorted(...)[0]` of an empty list
raise `IndexError`; the raise happens before the print/reset lines, and
the `RANDOM` branch returns before them. -/
def controllerSearch {B : Type} (g : GameAPI B) (randomFlag : Bool)
    (maxDepth : Int) (ridx : Nat) (b : B) (c : Nat) :
    Except String (Option ChessMove) × Nat × Option Nat :=
  if randomFlag then
    match g.legalMoves b with
    | [] => (Except.error "IndexError", c, none)
    | m0 :: rest =>
      (Except.ok (some ((m0 :: rest).getD (ridx % (rest.length + 1)) m0)), c, none)
  else
    match (if maxDepth = -1 then
        match sortDesc (fun m => score_move g b m) (g.legalMoves b) with
        | [] => ((Except.error "IndexError" : Except String (Option ChessMove)), c)
        | m :: _ => (Except.ok (some m), c)
      else
        ((Except.ok (ab_recur g maxDepth.toNat b true NEG_INF INF c).1.1),
          (ab_recur g maxDepth.toNat b true NEG_INF INF c).2)) with
    | (Except.error e, c2) => (Except.error e, c2, none)
    | (Except.ok mv, c2) => (Except.ok mv, 0, some c2)

/-- Modelled from the spec: exhaustive unpruned minimax at the same depth,
with the same depth-0 evaluation (`scorePosition`) and the same
no-legal-moves rule (`(none, −∞)` at any interior node without moves).
This is the reference side of the refinement claim about the alpha-beta
search. -/
def minimax {B : Type} (g : GameAPI B) : Nat → B → Bool → Int
  | 0, b, _ => if g.legalMoves b = [] then NEG_INF else score_board g b
  | d + 1, b, maxi =>
    match g.legalMoves b with
    | [] => NEG_INF
    | m0 :: rest =>
      if maxi then
        rest.foldl (fun acc m => max acc (minimax g d (g.push b m) false))
          (minimax g d (g.push b m0) false)
      else
        rest.foldl (fun acc m => min acc (minimax g d (g.push b m) true))
          (minimax g d (g.push b m0) true)

/-- The tuple of ordering signals packed into `_score_move`, most
significant first: promotion value, capture flag, pawn-exposure tier,
positional delta, destination square, source square. -/
def moveKey {B : Type} (g : GameAPI B) (b : B) (m : ChessMove) :
    Int × Int × Int × Int × Int × Int :=
  ((promoVal m : Int), if g.isCapture b m then 1 else 0, pawn_attacks g b m,
    move_value g b m, (m.toSq : Int), (m.fromSq : Int))

/-- Strict lexicographic order on the packed signal tuples, most
significant field first. -/
def keyGT (x y : Int × Int × Int × Int × Int × Int) : Prop :=
  y.1 < x.1 ∨ (x.1 = y.1 ∧
    (y.2.1 < x.2.1 ∨ (x.2.1 = y.2.1 ∧
      (y.2.2.1 < x.2.2.1 ∨ (x.2.2.1 = y.2.2.1 ∧
        (y.2.2.2.1 < x.2.2.2.1 ∨ (x.2.2.2.1 = y.2.2.2.1 ∧
          (y.2.2.2.2.1 < x.2.2.2.2.1 ∨ (x.2.2.2.2.1 = y.2.2.2.2.1 ∧
            y.2.2.2.2.2 < x.2.2.2.2.2)))))))))

instance (x y : Int × Int × Int × Int × Int × Int) : Decidable (keyGT x y) := by
  unfold keyGT; infer_instance

/-- The vertical square mirroring as the spec words it: flip the rank,
keep the file. -/
def mirrorSpec (sq : Nat) : Nat := 8 * (7 - sq / 8) + sq % 8

/-- Running maximum of the keys of a list, seeded with `a` (the shape of the
folds in `_score_board`, in unpruned minimax and in the exact value of a
maximizing loop). -/
def vfold (f : ChessMove → Int) : Int → List ChessMove → Int
  | a, [] => a
  | a, m :: l => vfold f (max a (f m)) l

/-- Running minimum of the keys of a list, seeded with `a`. -/
def vfmin (f : ChessMove → Int) : Int → List ChessMove → Int
  | a, [] => a
  | a, m :: l => vfmin f (min a (f m)) l

/-- Bounds on the non-promotion fields of a packed-score tuple, as they hold
for any legal move of a `ChessLike` game: capture flag in `{0,1}`,
pawn-exposure tier in `[-1, 6]`, positional delta in `[-100, 100]`, squares
in `[0, 63]`, promotion value nonnegative. -/
def KeyBounds (x : Int × Int × Int × Int × Int × Int) : Prop :=
  0 ≤ x.2.1 ∧ x.2.1 ≤ 1 ∧ -1 ≤ x.2.2.1 ∧ x.2.2.1 ≤ 6 ∧
  -100 ≤ x.2.2.2.1 ∧ x.2.2.2.1 ≤ 100 ∧ 0 ≤ x.2.2.2.2.1 ∧ x.2.2.2.2.1 ≤ 63 ∧
  0 ≤ x.2.2.2.2.2 ∧ x.2.2.2.2.2 ≤ 63 ∧ 0 ≤ x.1

/-- The bit-packing of `_score_move`, as a function of the signal tuple. -/
def comb (x : Int × Int × Int × Int × Int × Int) : Int :=
  x.1 * 2 ^ 26 + x.2.1 * 2 ^ 25 + x.2.2.1 * 2 ^ 22 + (512 + x.2.2.2.1 * 2 ^ 12)
    + x.2.2.2.2.1 * 2 ^ 6 + x.2.2.2.2.2

/-- A quiet pawn move 8 → 16 (a2–a3 in White's frame). -/
def mA : ChessMove := ⟨8, 16, none⟩

/-- A quiet pawn move 9 → 17. -/
def mB : ChessMove := ⟨9, 17, none⟩

/-- A quiet pawn move 48 → 40. -/
def mC : ChessMove := ⟨48, 40, none⟩

/-- A tiny three-position `ChessLike` game used to instantiate the theorems
on concrete inputs: position `0` has two legal moves, position `1` has one,
position `2` has none. -/
def tg : GameAPI (Fin 3) where
  legalMoves b := if b = 0 then [mA, mB] else if b = 1 then [mC] else []
  turn _ := true
  pieceTypeAt _ _ := 1
  pieces _ _ _ := ∅
  attacks _ _ := ∅
  isCapture _ _ := false
  push b _ := if b = 0 then 1 else 2

/-- `best_val = s if s > best_val else best_val` is `max best_val s`. -/
theorem if_lt_max (a b : Int) : (if a < b then b else a) = max a b := by
  rcases le_or_lt b a with h | h
  · rw [if_neg (not_lt.mpr h), max_eq_left h]
  · rw [if_pos h, max_eq_right (le_of_lt h)]

/-- `best_val = s if s < best_val else best_val` is `min best_val s`. -/
theorem if_lt_min (a b : Int) : (if b < a then b else a) = min a b := by
  rcases le_or_lt a b with h | h
  · rw [if_neg (not_lt.mpr h), min_eq_left h]
  · rw [if_pos h, min_eq_right (le_of_lt h)]

theorem max_distrib (a b c : Int) : max (max a b) c = max (max a c) (max b c) := by
  apply le_antisymm
  · exact max_le (max_le (le_trans (le_max_left a c) (le_max_left _ _))
      (le_trans (le_max_left b c) (le_max_right _ _)))
      (le_trans (le_max_right a c) (le_max_left _ _))
  · exact max_le (max_le (le_trans (le_max_left a b) (le_max_left _ _)) (le_max_right _ _))
      (max_le (le_trans (le_max_right a b) (le_max_left _ _)) (le_max_right _ _))

theorem min_distrib (a b c : Int) : min (min a b) c = min (min a c) (min b c) := by
  apply le_antisymm
  · exact le_min (le_min (le_trans (min_le_left _ _) (min_le_left a b)) (min_le_right _ _))
      (le_min (le_trans (min_le_left _ _) (min_le_right a b)) (min_le_right _ _))
  · exact le_min (le_min (le_trans (min_le_left _ _) (min_le_left a c))
      (le_trans (min_le_right _ _) (min_le_left b c)))
      (le_trans (min_le_left _ _) (min_le_right a c))

theorem vfold_eq_foldl (f : ChessMove → Int) :
    ∀ (l : List ChessMove) (a : Int),
      vfold f a l = l.foldl (fun acc x => max acc (f x)) a := by
  intro l
  induction l with
  | nil => intro a; rfl
  | cons m l ih => intro a; simp only [vfold, List.foldl]; exact ih _

theorem vfmin_eq_foldl (f : ChessMove → Int) :
    ∀ (l : List ChessMove) (a : Int),
      vfmin f a l = l.foldl (fun acc x => min acc (f x)) a := by
  intro l
  induction l with
  | nil => intro a; rfl
  | cons m l ih => intro a; simp only [vfmin, List.foldl]; exact ih _

theorem vfold_init_le (f : ChessMove → Int) :
    ∀ (l : List ChessMove) (a : Int), a ≤ vfold f a l := by
  intro l
  induction l with
  | nil => intro a; simp [vfold]
  | cons m l ih => intro a; simp only [vfold]; exact le_trans (le_max_left _ _) (ih _)

theorem le_vfmin_init (f : ChessMove → Int) :
    ∀ (l : List ChessMove) (a : Int), vfmin f a l ≤ a := by
  intro l
  induction l with
  | nil => intro a; simp [vfmin]
  | cons m l ih => intro a; simp only [vfmin]; exact le_trans (ih _) (min_le_left _ _)

theorem vfold_mono (f : ChessMove → Int) :
    ∀ (l : List ChessMove) {a b : Int}, a ≤ b → vfold f a l ≤ vfold f b l := by
  intro l
  induction l with
  | nil => intro a b h; simpa [vfold] using h
  | cons m l ih => intro a b h; simp only [vfold]; exact ih (max_le_max h le_rfl)

theorem vfmin_mono (f : ChessMove → Int) :
    ∀ (l : List ChessMove) {a b : Int}, a ≤ b → vfmin f a l ≤ vfmin f b l := by
  intro l
  induction l with
  | nil => intro a b h; simpa [vfmin] using h
  | cons m l ih => intro a b h; simp only [vfmin]; exact ih (min_le_min h le_rfl)

theorem vfold_max (f : ChessMove → Int) :
    ∀ (l : List ChessMove) (a b : Int),
      vfold f (max a b) l = max (vfold f a l) (vfold f b l) := by
  intro l
  induction l with
  | nil => intro a b; rfl
  | cons m l ih =>
    intro a b
    simp only [vfold]
    rw [max_distrib a b (f m)]
    exact ih _ _

theorem vfmin_min (f : ChessMove → Int) :
    ∀ (l : List ChessMove) (a b : Int),
      vfmin f (min a b) l = min (vfmin f a l) (vfmin f b l) := by
  intro l
  induction l with
  | nil => intro a b; rfl
  | cons m l ih =>
    intro a b
    simp only [vfmin]
    rw [min_distrib a b (f m)]
    exact ih _ _

theorem vfold_swap (f : ChessMove → Int) :
    ∀ (l : List ChessMove) (a b : Int), vfold f a l ≤ max (vfold f b l) a := by
  intro l
  induction l with
  | nil => intro a b; exact le_max_right _ _
  | cons m l ih =>
    intro a b
    simp only [vfold]
    have hfm : f m ≤ vfold f (max b (f m)) l :=
      le_trans (le_max_right b (f m)) (vfold_init_le f l _)
    refine le_trans (ih (max a (f m)) (max b (f m))) ?_
    exact max_le (le_max_left _ _)
      (max_le (le_max_right _ _) (le_trans hfm (le_max_left _ _)))

theorem vfmin_swap (f : ChessMove → Int) :
    ∀ (l : List ChessMove) (a b : Int), min (vfmin f b l) a ≤ vfmin f a l := by
  intro l
  induction l with
  | nil => intro a b; exact min_le_right _ _
  | cons m l ih =>
    intro a b
    simp only [vfmin]
    have hfm : vfmin f (min b (f m)) l ≤ f m :=
      le_trans (le_vfmin_init f l _) (min_le_right b (f m))
    refine le_trans ?_ (ih (min a (f m)) (min b (f m)))
    exact le_min (min_le_left _ _)
      (le_min (min_le_right _ _) (le_trans (min_le_left _ _) hfm))

theorem vfold_le (f : ChessMove → Int) :
    ∀ (l : List ChessMove) {a K : Int},
      (∀ x ∈ l, f x ≤ K) → a ≤ K → vfold f a l ≤ K := by
  intro l
  induction l with
  | nil => intro a K _ ha; simpa [vfold] using ha
  | cons m l ih =>
    intro a K h ha
    simp only [vfold]
    exact ih (fun x hx => h x (List.mem_cons_of_mem _ hx))
      (max_le ha (h m (List.mem_cons_self _ _)))

theorem le_vfmin (f : ChessMove → Int) :
    ∀ (l : List ChessMove) {a K : Int},
      (∀ x ∈ l, K ≤ f x) → K ≤ a → K ≤ vfmin f a l := by
  intro l
  induction l with
  | nil => intro a K _ ha; simpa [vfmin] using ha
  | cons m l ih =>
    intro a K h ha
    simp only [vfmin]
    exact ih (fun x hx => h x (List.mem_cons_of_mem _ hx))
      (le_min ha (h m (List.mem_cons_self _ _)))

theorem vfold_mem_le (f : ChessMove → Int) :
    ∀ (l : List ChessMove) (a : Int) {x : ChessMove}, x ∈ l → f x ≤ vfold f a l := by
  intro l
  induction l with
  | nil => intro a x hx; exact absurd hx (List.not_mem_nil _)
  | cons m l ih =>
    intro a x hx
    simp only [vfold]
    rcases List.mem_cons.mp hx with h | h
    · subst h; exact le_trans (le_max_right a (f x)) (vfold_init_le f l _)
    · exact ih _ h

theorem vfmin_le_mem (f : ChessMove → Int) :
    ∀ (l : List ChessMove) (a : Int) {x : ChessMove}, x ∈ l → vfmin f a l ≤ f x := by
  intro l
  induction l with
  | nil => intro a x hx; exact absurd hx (List.not_mem_nil _)
  | cons m l ih =>
    intro a x hx
    simp only [vfmin]
    rcases List.mem_cons.mp hx with h | h
    · subst h; exact le_trans (le_vfmin_init f l _) (min_le_right a (f x))
    · exact ih _ h

theorem vfold_attained (f : ChessMove → Int) :
    ∀ (l : List ChessMove) (a : Int),
      vfold f a l = a ∨ ∃ x ∈ l, vfold f a l = f x := by
  intro l
  induction l with
  | nil => intro a; exact Or.inl rfl
  | cons m l ih =>
    intro a
    simp only [vfold]
    rcases ih (max a (f m)) with h | ⟨x, hx, he⟩
    · rcases max_choice a (f m) with hc | hc
      · exact Or.inl (h.trans hc)
      · exact Or.inr ⟨m, List.mem_cons_self _ _, h.trans hc⟩
    · exact Or.inr ⟨x, List.mem_cons_of_mem _ hx, he⟩

theorem vfmin_attained (f : ChessMove → Int) :
    ∀ (l : List ChessMove) (a : Int),
      vfmin f a l = a ∨ ∃ x ∈ l, vfmin f a l = f x := by
  intro l
  induction l with
  | nil => intro a; exact Or.inl rfl
  | cons m l ih =>
    intro a
    simp only [vfmin]
    rcases ih (min a (f m)) with h | ⟨x, hx, he⟩
    · rcases min_choice a (f m) with hc | hc
      · exact Or.inl (h.trans hc)
      · exact Or.inr ⟨m, List.mem_cons_self _ _, h.trans hc⟩
    · exact Or.inr ⟨x, List.mem_cons_of_mem _ hx, he⟩

/-- Upper guarantee of the maximizing loop: the returned value never
exceeds `max` of the exact value of the remaining computation and the
incoming `alpha`, provided each child call obeys the same upper guarantee
against its exact value `ev`. -/
theorem abMaxLoop_le {B : Type} (pushF : ChessMove → B)
    (child : B → Int → Int → Nat → Int × Nat) (ev : B → Int)
    (Hf : ∀ b2 a2 b3 c2, (child b2 a2 b3 c2).1 ≤ max (ev b2) a2) :
    ∀ (ms : List ChessMove) (bm : ChessMove) (bv alpha beta : Int) (c : Nat),
      (abMaxLoop pushF child ms bm bv alpha beta c).1.2 ≤
        max (vfold (fun m => ev (pushF m)) bv ms) alpha := by
  intro ms
  induction ms with
  | nil =>
    intro bm bv alpha beta c
    simp [abMaxLoop, vfold]
  | cons m ms ih =>
    intro bm bv alpha beta c
    simp only [abMaxLoop, vfold, if_lt_max]
    set s := (child (pushF m) alpha beta (c + 1)).1 with hsdef
    have hs : s ≤ max (ev (pushF m)) alpha := Hf _ _ _ _
    have hAT : vfold (fun m => ev (pushF m)) bv ms ≤
        vfold (fun m => ev (pushF m)) (max bv (ev (pushF m))) ms :=
      vfold_mono _ ms (le_max_left _ _)
    have hET : vfold (fun m => ev (pushF m)) (ev (pushF m)) ms ≤
        vfold (fun m => ev (pushF m)) (max bv (ev (pushF m))) ms :=
      vfold_mono _ ms (le_max_right _ _)
    have hfmE : ev (pushF m) ≤ vfold (fun m => ev (pushF m)) (ev (pushF m)) ms :=
      vfold_init_le _ ms _
    have hbvA : bv ≤ vfold (fun m => ev (pushF m)) bv ms := vfold_init_le _ ms _
    by_cases hbr : beta < s
    · rw [if_pos hbr]
      exact max_le (le_trans (le_trans hbvA hAT) (le_max_left _ _))
        (le_trans hs (max_le (le_trans (le_trans hfmE hET) (le_max_left _ _))
          (le_max_right _ _)))
    · rw [if_neg hbr]
      refine le_trans (ih _ _ _ _ _) ?_
      rw [vfold_max _ ms bv s]
      have hsT : s ≤ max (vfold (fun m => ev (pushF m)) (max bv (ev (pushF m))) ms) alpha :=
        le_trans hs (max_le (le_trans (le_trans hfmE hET) (le_max_left _ _)) (le_max_right _ _))
      apply max_le
      · apply max_le
        · exact le_trans hAT (le_max_left _ _)
        · refine le_trans (vfold_swap _ ms s (ev (pushF m))) ?_
          exact max_le (le_trans hET (le_max_left _ _)) hsT
      · apply max_le
        · apply max_le
          · exact le_trans (le_trans hbvA hAT) (le_max_left _ _)
          · exact hsT
        · exact le_max_right _ _

/-- Lower guarantee of the maximizing loop: the returned value is at least
`min` of the exact value of the remaining computation and the incoming
`beta`, provided each child call obeys the same lower guarantee. -/
theorem abMaxLoop_ge {B : Type} (pushF : ChessMove → B)
    (child : B → Int → Int → Nat → Int × Nat) (ev : B → Int)
    (Hf : ∀ b2 a2 b3 c2, min (ev b2) b3 ≤ (child b2 a2 b3 c2).1) :
    ∀ (ms : List ChessMove) (bm : ChessMove) (bv alpha beta : Int) (c : Nat),
      min (vfold (fun m => ev (pushF m)) bv ms) beta ≤
        (abMaxLoop pushF child ms bm bv alpha beta c).1.2 := by
  intro ms
  induction ms with
  | nil =>
    intro bm bv alpha beta c
    simp [abMaxLoop, vfold]
  | cons m ms ih =>
    intro bm bv alpha beta c
    simp only [abMaxLoop, vfold, if_lt_max]
    set s := (child (pushF m) alpha beta (c + 1)).1 with hsdef
    have hs : min (ev (pushF m)) beta ≤ s := Hf _ _ _ _
    by_cases hbr : beta < s
    · rw [if_pos hbr]
      exact le_trans (min_le_right _ _) (le_trans (le_of_lt hbr) (le_max_right bv s))
    · rw [if_neg hbr]
      refine le_trans ?_ (ih _ _ _ _ _)
      rcases min_le_iff.mp hs with h | h
      · exact min_le_min (vfold_mono _ ms (max_le_max le_rfl h)) le_rfl
      · have hb : beta ≤ vfold (fun m => ev (pushF m)) (max bv s) ms :=
          le_trans (le_trans h (le_max_right bv s)) (vfold_init_le _ ms _)
        rw [min_eq_right hb]
        exact min_le_right _ _

/-- Lower guarantee of the minimizing loop (mirror of `abMaxLoop_le`). -/
theorem abMinLoop_ge {B : Type} (pushF : ChessMove → B)
    (child : B → Int → Int → Nat → Int × Nat) (ev : B → Int)
    (Hf : ∀ b2 a2 b3 c2, min (ev b2) b3 ≤ (child b2 a2 b3 c2).1) :
    ∀ (ms : List ChessMove) (bm : ChessMove) (bv alpha beta : Int) (c : Nat),
      min (vfmin (fun m => ev (pushF m)) bv ms) beta ≤
        (abMinLoop pushF child ms bm bv alpha beta c).1.2 := by
  intro ms
  induction ms with
  | nil =>
    intro bm bv alpha beta c
    simp [abMinLoop, vfmin]
  | cons m ms ih =>
    intro bm bv alpha beta c
    simp only [abMinLoop, vfmin, if_lt_min]
    set s := (child (pushF m) alpha beta (c + 1)).1 with hsdef
    have hs : min (ev (pushF m)) beta ≤ s := Hf _ _ _ _
    have hTA : vfmin (fun m => ev (pushF m)) (min bv (ev (pushF m))) ms ≤
        vfmin (fun m => ev (pushF m)) bv ms :=
      vfmin_mono _ ms (min_le_left _ _)
    have hTE : vfmin (fun m => ev (pushF m)) (min bv (ev (pushF m))) ms ≤
        vfmin (fun m => ev (pushF m)) (ev (pushF m)) ms :=
      vfmin_mono _ ms (min_le_right _ _)
    have hEfm : vfmin (fun m => ev (pushF m)) (ev (pushF m)) ms ≤ ev (pushF m) :=
      le_vfmin_init _ ms _
    have hAbv : vfmin (fun m => ev (pushF m)) bv ms ≤ bv := le_vfmin_init _ ms _
    have hTs : min (vfmin (fun m => ev (pushF m)) (min bv (ev (pushF m))) ms) beta ≤ s :=
      le_trans (min_le_min (le_trans hTE hEfm) le_rfl) hs
    by_cases hbr : s ≤ alpha
    · rw [if_pos hbr]
      exact le_min (le_trans (min_le_left _ _) (le_trans hTA hAbv)) hTs
    · rw [if_neg hbr]
      refine le_trans ?_ (ih _ _ _ _ _)
      rw [vfmin_min _ ms bv s]
      apply le_min
      · apply le_min
        · exact le_trans (min_le_left _ _) hTA
        · refine le_trans ?_ (vfmin_swap _ ms s (ev (pushF m)))
          exact le_min (le_trans (min_le_left _ _) hTE) hTs
      · apply le_min
        · exact le_min (le_trans (min_le_left _ _) (le_trans hTA hAbv)) hTs
        · exact min_le_right _ _

/-- Upper guarantee of the minimizing loop (mirror of `abMaxLoop_ge`). -/
theorem abMinLoop_le {B : Type} (pushF : ChessMove → B)
    (child : B → Int → Int → Nat → Int × Nat) (ev : B → Int)
    (Hf : ∀ b2 a2 b3 c2, (child b2 a2 b3 c2).1 ≤ max (ev b2) a2) :
    ∀ (ms : List ChessMove) (bm : ChessMove) (bv alpha beta : Int) (c : Nat),
      (abMinLoop pushF child ms bm bv alpha beta c).1.2 ≤
        max (vfmin (fun m => ev (pushF m)) bv ms) alpha := by
  intro ms
  induction ms with
  | nil =>
    intro bm bv alpha beta c
    simp [abMinLoop, vfmin]
  | cons m ms ih =>
    intro bm bv alpha beta c
    simp only [abMinLoop, vfmin, if_lt_min]
    set s := (child (pushF m) alpha beta (c + 1)).1 with hsdef
    have hs : s ≤ max (ev (pushF m)) alpha := Hf _ _ _ _
    by_cases hbr : s ≤ alpha
    · rw [if_pos hbr]
      exact le_trans (min_le_right bv s) (le_trans hbr (le_max_right _ _))
    · rw [if_neg hbr]
      refine le_trans (ih _ _ _ _ _) ?_
      rcases le_max_iff.mp hs with h | h
      · exact max_le_max (vfmin_mono _ ms (min_le_min le_rfl h)) le_rfl
      · exact absurd h hbr

theorem NEG_INF_lt_INF : NEG_INF < INF := by norm_num [NEG_INF, INF]

theorem table_getD_bound (L : List Int) (hlen : L.length = 64)
    (h : ∀ i, i < 64 → -50 ≤ L.getD i 0 ∧ L.getD i 0 ≤ 50) (sq : Nat) :
    -50 ≤ L.getD sq 0 ∧ L.getD sq 0 ≤ 50 := by
  by_cases hs : sq < 64
  · exact h sq hs
  · rw [List.getD_eq_default _ _ (by omega)]
    norm_num

theorem psqt_bound (pt sq : Nat) (h1 : 1 ≤ pt) (h6 : pt ≤ 6) :
    -50 ≤ psqtAt pt sq ∧ psqtAt pt sq ≤ 50 := by
  unfold psqtAt
  interval_cases pt
  · exact table_getD_bound pawnTable (by rfl) (by decide) sq
  · exact table_getD_bound knightTable (by rfl) (by decide) sq
  · exact table_getD_bound bishopTable (by rfl) (by decide) sq
  · exact table_getD_bound rookTable (by rfl) (by decide) sq
  · exact table_getD_bound queenTable (by rfl) (by decide) sq
  · exact table_getD_bound kingTable (by rfl) (by decide) sq

theorem piece_value_bound (c : Bool) (pt sq : Nat) (h1 : 1 ≤ pt) (h6 : pt ≤ 6) :
    -50 ≤ piece_value c pt sq ∧ piece_value c pt sq ≤ 50 := by
  unfold piece_value
  exact psqt_bound pt _ h1 h6

theorem move_value_bound {B : Type} (g : GameAPI B) (b : B) (m : ChessMove)
    (h1 : 1 ≤ g.pieceTypeAt b m.fromSq) (h6 : g.pieceTypeAt b m.fromSq ≤ 6) :
    -100 ≤ move_value g b m ∧ move_value g b m ≤ 100 := by
  unfold move_value
  obtain ⟨lo1, hi1⟩ := piece_value_bound (g.turn b) (g.pieceTypeAt b m.fromSq) m.toSq h1 h6
  obtain ⟨lo2, hi2⟩ := piece_value_bound (g.turn b) (g.pieceTypeAt b m.fromSq) m.fromSq h1 h6
  constructor <;> omega

theorem pawn_attacks_bound {B : Type} (g : GameAPI B) (b : B) (m : ChessMove)
    (h1 : 1 ≤ g.pieceTypeAt b m.fromSq) (h6 : g.pieceTypeAt b m.fromSq ≤ 6) :
    -1 ≤ pawn_attacks g b m ∧ pawn_attacks g b m ≤ 6 := by
  unfold pawn_attacks
  split
  · norm_num
  · constructor <;> omega

theorem score_move_range {B : Type} (g : GameAPI B) (hg : ChessLike g) (b : B)
    (m : ChessMove) (hm : m ∈ g.legalMoves b) :
    NEG_INF < score_move g b m ∧ score_move g b m < INF := by
  obtain ⟨hf, ht, h1, h6, hp5, -⟩ := hg b m hm
  obtain ⟨mvlo, mvhi⟩ := move_value_bound g b m h1 h6
  obtain ⟨palo, pahi⟩ := pawn_attacks_bound g b m h1 h6
  have hcap : 0 ≤ (if g.isCapture b m then (1:Int) else 0) ∧
      (if g.isCapture b m then (1:Int) else 0) ≤ 1 := by split <;> norm_num
  obtain ⟨caplo, caphi⟩ := hcap
  unfold score_move INF NEG_INF
  have e26 : (2:Int) ^ 26 = 67108864 := by norm_num
  have e25 : (2:Int) ^ 25 = 33554432 := by norm_num
  have e22 : (2:Int) ^ 22 = 4194304 := by norm_num
  have e12 : (2:Int) ^ 12 = 4096 := by norm_num
  have e6 : (2:Int) ^ 6 = 64 := by norm_num
  have eI : (10:Int) ^ 32 = 100000000000000000000000000000000 := by norm_num
  rw [e26, e25, e22, e12, e6, eI]
  constructor <;> omega

theorem score_board_eq_vfold {B : Type} (g : GameAPI B) (b : B) (m0 : ChessMove)
    (rest : List ChessMove) (h : g.legalMoves b = m0 :: rest) :
    score_board g b = vfold (score_move g b) (score_move g b m0) rest := by
  simp only [score_board, h]
  rw [vfold_eq_foldl]

theorem score_board_range {B : Type} (g : GameAPI B) (hg : ChessLike g) (b : B) :
    NEG_INF ≤ score_board g b ∧ score_board g b ≤ INF := by
  rcases h : g.legalMoves b with - | ⟨m0, rest⟩
  · simp only [score_board, h]
    exact ⟨le_refl _, le_of_lt NEG_INF_lt_INF⟩
  · rw [score_board_eq_vfold g b m0 rest h]
    have h0 := score_move_range g hg b m0 (by rw [h]; exact List.mem_cons_self _ _)
    constructor
    · exact le_trans (le_of_lt h0.1) (vfold_init_le _ _ _)
    · refine vfold_le _ _ (fun x hx => ?_) (le_of_lt h0.2)
      have hx2 : x ∈ g.legalMoves b := by rw [h]; exact List.mem_cons_of_mem _ hx
      exact le_of_lt (score_move_range g hg b x hx2).2

theorem minimax_range {B : Type} (g : GameAPI B) (hg : ChessLike g) :
    ∀ (d : Nat) (b : B) (maxi : Bool),
      NEG_INF ≤ minimax g d b maxi ∧ minimax g d b maxi ≤ INF := by
  intro d
  induction d with
  | zero =>
    intro b maxi
    simp only [minimax]
    split
    · exact ⟨le_refl _, le_of_lt NEG_INF_lt_INF⟩
    · exact score_board_range g hg b
  | succ d ih =>
    intro b maxi
    rcases h : g.legalMoves b with - | ⟨m0, rest⟩
    · simp only [minimax, h]
      exact ⟨le_refl _, le_of_lt NEG_INF_lt_INF⟩
    · cases maxi with
    | false =>
      simp only [minimax, h, if_neg (Bool.false_ne_true)]
      rw [← vfmin_eq_foldl (fun m => minimax g d (g.push b m) true) rest]
      constructor
      · exact le_vfmin _ _ (fun x _ => (ih (g.push b x) true).1) (ih (g.push b m0) true).1
      · exact le_trans (le_vfmin_init _ _ _) (ih (g.push b m0) true).2
    | true =>
      simp only [minimax, h, if_pos rfl]
      rw [← vfold_eq_foldl (fun m => minimax g d (g.push b m) false) rest]
      constructor
      · exact le_trans (ih (g.push b m0) false).1 (vfold_init_le _ _ _)
      · exact vfold_le _ _ (fun x _ => (ih (g.push b x) false).2) (ih (g.push b m0) false).2

theorem vfold_minimax_fix {B : Type} (g : GameAPI B) (hg : ChessLike g) (d : Nat)
    (b : B) (m0 : ChessMove) (rest : List ChessMove) (h : g.legalMoves b = m0 :: rest) :
    vfold (fun m => minimax g d (g.push b m) false) NEG_INF (m0 :: rest)
      = minimax g (d + 1) b true := by
  simp only [vfold]
  rw [max_eq_right (minimax_range g hg d (g.push b m0) false).1]
  rw [vfold_eq_foldl]
  simp [minimax, h]

theorem vfmin_minimax_fix {B : Type} (g : GameAPI B) (hg : ChessLike g) (d : Nat)
    (b : B) (m0 : ChessMove) (rest : List ChessMove) (h : g.legalMoves b = m0 :: rest) :
    vfmin (fun m => minimax g d (g.push b m) true) INF (m0 :: rest)
      = minimax g (d + 1) b false := by
  simp only [vfmin]
  rw [min_eq_right (minimax_range g hg d (g.push b m0) true).2]
  rw [vfmin_eq_foldl]
  simp [minimax, h]

/-- Fail-soft guarantees of `_recur` against unpruned minimax: the returned
value is at most `max` of the exact value and `alpha`, and at least `min`
of the exact value and `beta`.  At the root window `(−∞, +∞)` the two pin
the value exactly. -/
theorem ab_approx {B : Type} (g : GameAPI B) (hg : ChessLike g) :
    ∀ (d : Nat) (b : B) (maxi : Bool) (alpha beta : Int) (c : Nat),
      (ab_recur g d b maxi alpha beta c).1.2 ≤ max (minimax g d b maxi) alpha ∧
      min (minimax g d b maxi) beta ≤ (ab_recur g d b maxi alpha beta c).1.2 := by
  intro d
  induction d with
  | zero =>
    intro b maxi alpha beta c
    simp only [ab_recur, minimax]
    exact ⟨le_max_left _ _, min_le_left _ _⟩
  | succ d ih =>
    intro b maxi alpha beta c
    cases maxi with
    | true =>
      rcases h : g.legalMoves b with - | ⟨m0, rest⟩
      · simp only [ab_recur, h, minimax]
        exact ⟨le_max_left _ _, min_le_left _ _⟩
      · have Hhi := abMaxLoop_le (g.push b)
          (fun b2 a2 b3 c2 =>
            let q := ab_recur g d b2 false a2 b3 c2
            (q.1.2, q.2))
          (fun b2 => minimax g d b2 false)
          (fun b2 a2 b3 c2 => (ih b2 false a2 b3 c2).1)
          (m0 :: rest) m0 NEG_INF alpha beta c
        have Hlo := abMaxLoop_ge (g.push b)
          (fun b2 a2 b3 c2 =>
            let q := ab_recur g d b2 false a2 b3 c2
            (q.1.2, q.2))
          (fun b2 => minimax g d b2 false)
          (fun b2 a2 b3 c2 => (ih b2 false a2 b3 c2).2)
          (m0 :: rest) m0 NEG_INF alpha beta c
        rw [vfold_minimax_fix g hg d b m0 rest h] at Hhi Hlo
        simp only [ab_recur, h]
        exact ⟨Hhi, Hlo⟩
    | false =>
      rcases h : g.legalMoves b with - | ⟨m0, rest⟩
      · simp only [ab_recur, h, minimax]
        exact ⟨le_max_left _ _, min_le_left _ _⟩
      · have Hhi := abMinLoop_le (g.push b)
          (fun b2 a2 b3 c2 =>
            let q := ab_recur g d b2 true a2 b3 c2
            (q.1.2, q.2))
          (fun b2 => minimax g d b2 true)
          (fun b2 a2 b3 c2 => (ih b2 true a2 b3 c2).1)
          (m0 :: rest) m0 INF alpha beta c
        have Hlo := abMinLoop_ge (g.push b)
          (fun b2 a2 b3 c2 =>
            let q := ab_recur g d b2 true a2 b3 c2
            (q.1.2, q.2))
          (fun b2 => minimax g d b2 true)
          (fun b2 a2 b3 c2 => (ih b2 true a2 b3 c2).2)
          (m0 :: rest) m0 INF alpha beta c
        rw [vfmin_minimax_fix g hg d b m0 rest h] at Hhi Hlo
        simp only [ab_recur, h]
        exact ⟨Hhi, Hlo⟩

/-- C1: for every `ChessLike` position interface and every configured depth
`d ≥ 1`, the value returned by the alpha-beta search — invoked at the root
with `maximizing = true`, `alpha = −∞`, `beta = +∞`, pruning at a
maximizing node when `beta < childValue` and at a minimizing node when
`childValue ≤ alpha`, with `_score_board` as the depth-0 evaluation —
equals exhaustive unpruned minimax to the same depth on the same position
with the same leaf evaluation and the same no-legal-moves rule. -/
theorem C1_alphabeta_value_eq_minimax {B : Type} (g : GameAPI B) (hg : ChessLike g)
    (d : Nat) (_hd : 1 ≤ d) (b : B) :
    abVal g d b true NEG_INF INF = minimax g d b true := by
  obtain ⟨h1, h2⟩ := ab_approx g hg d b true NEG_INF INF 0
  obtain ⟨hlo, hhi⟩ := minimax_range g hg d b true
  unfold abVal
  rw [max_eq_left hlo] at h1
  rw [min_eq_left hhi] at h2
  exact le_antisymm h1 h2

/-- Witness for C1: the hypotheses hold at the concrete game `tg` and
depth 1. -/
theorem C1_alphabeta_value_eq_minimax_witness :
    abVal tg 1 0 true NEG_INF INF = minimax tg 1 0 true :=
  C1_alphabeta_value_eq_minimax tg (by decide) 1 (by decide) 0

/-- C6: an interior search node (depth ≥ 1) whose position has no legal
moves returns `(none, −∞)`, both when the node is maximizing and when it
is minimizing. -/
theorem C6_interior_no_moves_neg_inf {B : Type} (g : GameAPI B) (d : Nat) (b : B)
    (maxi : Bool) (alpha beta : Int) (c : Nat) (h : g.legalMoves b = []) :
    (ab_recur g (d + 1) b maxi alpha beta c).1 = (none, NEG_INF) := by
  cases maxi <;> simp [ab_recur, h]

/-- Witness for C6 at the moveless position `2` of `tg`, at a maximizing
and at a minimizing node. -/
theorem C6_interior_no_moves_neg_inf_witness :
    (ab_recur tg (0 + 1) 2 true NEG_INF INF 0).1 = (none, NEG_INF) ∧
    (ab_recur tg (0 + 1) 2 false NEG_INF INF 0).1 = (none, NEG_INF) :=
  ⟨C6_interior_no_moves_neg_inf tg 0 2 true NEG_INF INF 0 (by decide),
   C6_interior_no_moves_neg_inf tg 0 2 false NEG_INF INF 0 (by decide)⟩

/-- C10: in full-search mode with a configured depth ≤ 0 (and ≠ −1, which
selects heuristic mode instead), the controller returns successfully with
an absent move for every position — the depth-limited terminal rule
returns no move and the controller passes it through unchanged. -/
theorem C10_depth_zero_returns_none {B : Type} (g : GameAPI B) (d : Int)
    (hd : d ≤ 0) (hne : d ≠ -1) (ridx : Nat) (b : B) (c : Nat) :
    controllerSearch g false d ridx b c = (Except.ok none, 0, some c) := by
  have hz : d.toNat = 0 := Int.toNat_of_nonpos hd
  simp [controllerSearch, hne, hz, ab_recur]

/-- Witness for C10: depth 0 at position `0` of `tg`, which has legal
moves. -/
theorem C10_depth_zero_returns_none_witness :
    tg.legalMoves 0 ≠ [] ∧
    controllerSearch tg false 0 0 0 5 = (Except.ok none, 0, some 5) :=
  ⟨by decide, C10_depth_zero_returns_none tg 0 (by decide) (by decide) 0 0 5⟩

/-- C7 counterexample: on a position with zero legal moves, full-search
mode does not report an error at all — the controller returns successfully
with an absent move, so the claim that every mode yields a reported error
fails. -/
theorem C7_counterexample :
    tg.legalMoves 2 = [] ∧
    (controllerSearch tg false 2 0 2 0).1 = Except.ok none := by
  constructor
  · decide
  · rfl

/-- C7 amended: with zero legal moves at the entry point, random mode and
heuristic mode raise `IndexError` from the empty-sequence access itself
(a defined Python exception, not memory unsafety), while full-search mode
returns successfully with an absent move instead of reporting an error. -/
theorem C7_amended_no_moves_outcomes {B : Type} (g : GameAPI B) (b : B)
    (h : g.legalMoves b = []) (ridx : Nat) (c : Nat) :
    (controllerSearch g true 0 ridx b c).1 = Except.error "IndexError" ∧
    (controllerSearch g false (-1) ridx b c).1 = Except.error "IndexError" ∧
    ∀ d : Int, d ≠ -1 → (controllerSearch g false d ridx b c).1 = Except.ok none := by
  refine ⟨?_, ?_, ?_⟩
  · simp [controllerSearch, h]
  · simp [controllerSearch, h, sortDesc]
  · intro d hd
    rcases hn : d.toNat with - | n
    · simp [controllerSearch, hd, hn, ab_recur]
    · simp [controllerSearch, hd, hn, ab_recur, h]

/-- Witness for the amended C7 at the moveless position `2` of `tg`. -/
theorem C7_amended_no_moves_outcomes_witness :
    (controllerSearch tg true 0 0 2 0).1 = Except.error "IndexError" ∧
    (controllerSearch tg false (-1) 0 2 0).1 = Except.error "IndexError" ∧
    (controllerSearch tg false 2 0 2 0).1 = Except.ok none :=
  ⟨(C7_amended_no_moves_outcomes tg 2 (by decide) 0 0).1,
   (C7_amended_no_moves_outcomes tg 2 (by decide) 0 0).2.1,
   (C7_amended_no_moves_outcomes tg 2 (by decide) 0 0).2.2 2 (by decide)⟩

/-- The maximizing loop's result is independent of the incoming counter and
its outgoing counter is the incoming counter plus the counter the loop
produces from zero, provided each child call has the same property. -/
theorem abMaxLoop_shift {B : Type} (pushF : ChessMove → B)
    (child : B → Int → Int → Nat → Int × Nat)
    (Hf : ∀ b2 a2 b3 c2, (child b2 a2 b3 c2).1 = (child b2 a2 b3 0).1 ∧
      (child b2 a2 b3 c2).2 = c2 + (child b2 a2 b3 0).2) :
    ∀ (ms : List ChessMove) (bm : ChessMove) (bv alpha beta : Int) (c : Nat),
      (abMaxLoop pushF child ms bm bv alpha beta c).1
        = (abMaxLoop pushF child ms bm bv alpha beta 0).1 ∧
      (abMaxLoop pushF child ms bm bv alpha beta c).2
        = c + (abMaxLoop pushF child ms bm bv alpha beta 0).2 := by
  intro ms
  induction ms with
  | nil => intro bm bv alpha beta c; simp [abMaxLoop]
  | cons m ms ih =>
    intro bm bv alpha beta c
    simp only [abMaxLoop]
    obtain ⟨hv, hc⟩ := Hf (pushF m) alpha beta (c + 1)
    obtain ⟨hv0, hc0⟩ := Hf (pushF m) alpha beta (0 + 1)
    rw [hv, hc, hv0, hc0]
    by_cases hbr : beta < (child (pushF m) alpha beta 0).1
    · rw [if_pos hbr, if_pos hbr]
      refine ⟨rfl, ?_⟩
      show c + 1 + (child (pushF m) alpha beta 0).2
        = c + (0 + 1 + (child (pushF m) alpha beta 0).2)
      omega
    · rw [if_neg hbr, if_neg hbr]
      obtain ⟨l1, l2⟩ := ih
        (if bv < (child (pushF m) alpha beta 0).1 then m else bm)
        (if bv < (child (pushF m) alpha beta 0).1 then (child (pushF m) alpha beta 0).1 else bv)
        (max (if bv < (child (pushF m) alpha beta 0).1 then (child (pushF m) alpha beta 0).1 else bv) alpha)
        beta (c + 1 + (child (pushF m) alpha beta 0).2)
      obtain ⟨r1, r2⟩ := ih
        (if bv < (child (pushF m) alpha beta 0).1 then m else bm)
        (if bv < (child (pushF m) alpha beta 0).1 then (child (pushF m) alpha beta 0).1 else bv)
        (max (if bv < (child (pushF m) alpha beta 0).1 then (child (pushF m) alpha beta 0).1 else bv) alpha)
        beta (0 + 1 + (child (pushF m) alpha beta 0).2)
      refine ⟨l1.trans r1.symm, ?_⟩
      rw [l2, r2]
      omega

/-- Counter-shift property of the minimizing loop (mirror of
`abMaxLoop_shift`). -/
theorem abMinLoop_shift {B : Type} (pushF : ChessMove → B)
    (child : B → Int → Int → Nat → Int × Nat)
    (Hf : ∀ b2 a2 b3 c2, (child b2 a2 b3 c2).1 = (child b2 a2 b3 0).1 ∧
      (child b2 a2 b3 c2).2 = c2 + (child b2 a2 b3 0).2) :
    ∀ (ms : List ChessMove) (bm : ChessMove) (bv alpha beta : Int) (c : Nat),
      (abMinLoop pushF child ms bm bv alpha beta c).1
        = (abMinLoop pushF child ms bm bv alpha beta 0).1 ∧
      (abMinLoop pushF child ms bm bv alpha beta c).2
        = c + (abMinLoop pushF child ms bm bv alpha beta 0).2 := by
  intro ms
  induction ms with
  | nil => intro bm bv alpha beta c; simp [abMinLoop]
  | cons m ms ih =>
    intro bm bv alpha beta c
    simp only [abMinLoop]
    obtain ⟨hv, hc⟩ := Hf (pushF m) alpha beta (c + 1)
    obtain ⟨hv0, hc0⟩ := Hf (pushF m) alpha beta (0 + 1)
    rw [hv, hc, hv0, hc0]
    by_cases hbr : (child (pushF m) alpha beta 0).1 ≤ alpha
    · rw [if_pos hbr, if_pos hbr]
      refine ⟨rfl, ?_⟩
      show c + 1 + (child (pushF m) alpha beta 0).2
        = c + (0 + 1 + (child (pushF m) alpha beta 0).2)
      omega
    · rw [if_neg hbr, if_neg hbr]
      obtain ⟨l1, l2⟩ := ih
        (if (child (pushF m) alpha beta 0).1 < bv then m else bm)
        (if (child (pushF m) alpha beta 0).1 < bv then (child (pushF m) alpha beta 0).1 else bv)
        alpha
        (min (if (child (pushF m) alpha beta 0).1 < bv then (child (pushF m) alpha beta 0).1 else bv) beta)
        (c + 1 + (child (pushF m) alpha beta 0).2)
      obtain ⟨r1, r2⟩ := ih
        (if (child (pushF m) alpha beta 0).1 < bv then m else bm)
        (if (child (pushF m) alpha beta 0).1 < bv then (child (pushF m) alpha beta 0).1 else bv)
        alpha
        (min (if (child (pushF m) alpha beta 0).1 < bv then (child (pushF m) alpha beta 0).1 else bv) beta)
        (0 + 1 + (child (pushF m) alpha beta 0).2)
      refine ⟨l1.trans r1.symm, ?_⟩
      rw [l2, r2]
      omega

/-- The search result is independent of the incoming class counter, and the
outgoing counter is the incoming one plus the number of pushes of this
call. -/
theorem ab_recur_shift {B : Type} (g : GameAPI B) :
    ∀ (d : Nat) (b : B) (maxi : Bool) (alpha beta : Int) (c : Nat),
      (ab_recur g d b maxi alpha beta c).1 = (ab_recur g d b maxi alpha beta 0).1 ∧
      (ab_recur g d b maxi alpha beta c).2 = c + (ab_recur g d b maxi alpha beta 0).2 := by
  intro d
  induction d with
  | zero => intro b maxi alpha beta c; simp [ab_recur]
  | succ d ih =>
    intro b maxi alpha beta c
    cases maxi with
    | true =>
      rcases h : g.legalMoves b with - | ⟨m0, rest⟩
      · simp [ab_recur, h]
      · simp only [ab_recur, h]
        obtain ⟨hs1, hs2⟩ := abMaxLoop_shift (g.push b)
          (fun b2 a2 b3 c2 =>
            let q := ab_recur g d b2 false a2 b3 c2
            (q.1.2, q.2))
          (fun b2 a2 b3 c2 =>
            ⟨congrArg Prod.snd (ih b2 false a2 b3 c2).1, (ih b2 false a2 b3 c2).2⟩)
          (m0 :: rest) m0 NEG_INF alpha beta c
        exact ⟨by rw [hs1], by exact hs2⟩
    | false =>
      rcases h : g.legalMoves b with - | ⟨m0, rest⟩
      · simp [ab_recur, h]
      · simp only [ab_recur, h]
        obtain ⟨hs1, hs2⟩ := abMinLoop_shift (g.push b)
          (fun b2 a2 b3 c2 =>
            let q := ab_recur g d b2 true a2 b3 c2
            (q.1.2, q.2))
          (fun b2 a2 b3 c2 =>
            ⟨congrArg Prod.snd (ih b2 true a2 b3 c2).1, (ih b2 true a2 b3 c2).2⟩)
          (m0 :: rest) m0 INF alpha beta c
        exact ⟨by rw [hs1], by exact hs2⟩

/-- C9 counterexample: the exploration counter is NOT reset at the start of
a top-level search — a full-search call entered with the class counter at 7
prints `7 +` its own pushes rather than its own push count. -/
theorem C9_counterexample :
    (controllerSearch tg false 1 0 0 7).2.2 ≠ some (abPushes tg 1 0) := by
  decide

/-- C9 amended: the counter increments once per push inside the alpha-beta
search and is reset to zero at the END of each completed full-search
invocation (not at the start); the printed diagnostic equals the incoming
counter plus this call's pushes, so the second of two consecutive
top-level searches — the first having left the counter at zero — still
reports exactly its own pushes, not including the first call's. -/
theorem C9_amended_counter {B : Type} (g : GameAPI B) (d : Int) (hd : d ≠ -1)
    (ridx : Nat) (b : B) (c : Nat) (b2 : B) :
    (controllerSearch g false d ridx b c).2.1 = 0 ∧
    (controllerSearch g false d ridx b c).2.2 = some (c + abPushes g d.toNat b) ∧
    (controllerSearch g false d ridx b2 (controllerSearch g false d ridx b c).2.1).2.2
      = some (abPushes g d.toNat b2) := by
  have key : ∀ (b3 : B) (c3 : Nat), controllerSearch g false d ridx b3 c3
      = (Except.ok (ab_recur g d.toNat b3 true NEG_INF INF c3).1.1, 0,
          some (c3 + abPushes g d.toNat b3)) := by
    intro b3 c3
    have h2 := (ab_recur_shift g d.toNat b3 true NEG_INF INF c3).2
    simp only [controllerSearch, if_neg hd, Bool.false_eq_true, if_false]
    rw [h2]
    rfl
  refine ⟨by rw [key], by rw [key], ?_⟩
  rw [key b c]
  show (controllerSearch g false d ridx b2 0).2.2 = some (abPushes g d.toNat b2)
  rw [key b2 0]
  simp

/-- Witness for the amended C9: two consecutive full-search calls on `tg`
at depth 1, the first entered with the counter at 7. -/
theorem C9_amended_counter_witness :
    (controllerSearch tg false 1 0 0 7).2.1 = 0 ∧
    (controllerSearch tg false 1 0 0 7).2.2 = some (7 + abPushes tg (1 : Int).toNat 0) ∧
    (controllerSearch tg false 1 0 1 (controllerSearch tg false 1 0 0 7).2.1).2.2
      = some (abPushes tg (1 : Int).toNat 1) :=
  C9_amended_counter tg 1 (by decide) 0 0 7 1

theorem square_mirror_eq_mirrorSpec : ∀ sq, sq < 64 → square_mirror sq = mirrorSpec sq := by
  decide

/-- C8: for every piece type `t` (1–6) and square `s` (0–63),
`_piece_value(White, t, s) = PSQT[t][mirror(s)]` with `mirror` the vertical
square mirroring, and `_piece_value(Black, t, s) = PSQT[t][s]`
(`chess.WHITE = True`, `chess.BLACK = False`). -/
theorem C8_piece_value_psqt (t sq : Nat) (_h1 : 1 ≤ t) (_h6 : t ≤ 6) (hs : sq < 64) :
    piece_value true t sq = psqtAt t (mirrorSpec sq) ∧
    piece_value false t sq = psqtAt t sq := by
  constructor
  · unfold piece_value
    rw [if_neg (by decide), square_mirror_eq_mirrorSpec sq hs]
  · unfold piece_value
    rw [if_pos rfl]

/-- Witness for C8 at the pawn table and square 0. -/
theorem C8_piece_value_psqt_witness :
    piece_value true 1 0 = psqtAt 1 (mirrorSpec 0) ∧ piece_value false 1 0 = psqtAt 1 0 :=
  C8_piece_value_psqt 1 0 (by decide) (by decide) (by decide)

/-- C4: the pawn-exposure tier used inside `_score_move` equals the fixed
best-tier constant 6 exactly when the enemy-pawn set meets the attack set
of the destination square in nothing (no enemy pawn attacks the
destination), and equals `5 −` the moving piece's type rank otherwise. -/
theorem C4_pawn_exposure_tier {B : Type} (g : GameAPI B) (b : B) (m : ChessMove) :
    (pawn_attacks g b m = 6 ↔ g.pieces b 1 (!g.turn b) ∩ g.attacks b m.toSq = ∅) ∧
    (g.pieces b 1 (!g.turn b) ∩ g.attacks b m.toSq ≠ ∅ →
      pawn_attacks g b m = 5 - (g.pieceTypeAt b m.fromSq : Int)) := by
  unfold pawn_attacks
  by_cases h : g.pieces b 1 (!g.turn b) ∩ g.attacks b m.toSq = ∅
  · rw [if_pos h]
    exact ⟨⟨fun _ => h, fun _ => rfl⟩, fun hne => absurd h hne⟩
  · rw [if_neg h]
    have h0 : (0 : Int) ≤ (g.pieceTypeAt b m.fromSq : Int) := Int.natCast_nonneg _
    refine ⟨⟨fun he => absurd he (by omega), fun hc => absurd hc h⟩, fun _ => rfl⟩

/-- Witness for C4 at position `0` of `tg` and move `mA` (no pawn attacks
there, so the tier is 6). -/
theorem C4_pawn_exposure_tier_witness :
    (pawn_attacks tg 0 mA = 6 ↔ tg.pieces 0 1 (!tg.turn 0) ∩ tg.attacks 0 mA.toSq = ∅) ∧
    (tg.pieces 0 1 (!tg.turn 0) ∩ tg.attacks 0 mA.toSq ≠ ∅ →
      pawn_attacks tg 0 mA = 5 - (tg.pieceTypeAt 0 mA.fromSq : Int)) :=
  C4_pawn_exposure_tier tg 0 mA

theorem score_move_eq_comb {B : Type} (g : GameAPI B) (b : B) (m : ChessMove) :
    score_move g b m = comb (moveKey g b m) := rfl

theorem moveKey_bounds {B : Type} (g : GameAPI B) (hg : ChessLike g) (b : B)
    (m : ChessMove) (hm : m ∈ g.legalMoves b) : KeyBounds (moveKey g b m) := by
  obtain ⟨hf, ht, h1, h6, hp5, -⟩ := hg b m hm
  obtain ⟨mvlo, mvhi⟩ := move_value_bound g b m h1 h6
  obtain ⟨palo, pahi⟩ := pawn_attacks_bound g b m h1 h6
  have hcap : (0:Int) ≤ (if g.isCapture b m then (1:Int) else 0) ∧
      (if g.isCapture b m then (1:Int) else 0) ≤ 1 := by split <;> norm_num
  refine ⟨hcap.1, hcap.2, palo, pahi, mvlo, mvhi, ?_, ?_, ?_, ?_, ?_⟩
  · exact Int.natCast_nonneg _
  · show (m.toSq : Int) ≤ 63
    omega
  · exact Int.natCast_nonneg _
  · show (m.fromSq : Int) ≤ 63
    omega
  · exact Int.natCast_nonneg _

theorem comb_lt_of_keyGT (x y : Int × Int × Int × Int × Int × Int)
    (hx : KeyBounds x) (hy : KeyBounds y) (h : keyGT x y) : comb y < comb x := by
  obtain ⟨x1, x2, x3, x4, x5, x6⟩ := x
  obtain ⟨y1, y2, y3, y4, y5, y6⟩ := y
  dsimp only [KeyBounds] at hx hy
  obtain ⟨hx2a, hx2b, hx3a, hx3b, hx4a, hx4b, hx5a, hx5b, hx6a, hx6b, hx1⟩ := hx
  obtain ⟨hy2a, hy2b, hy3a, hy3b, hy4a, hy4b, hy5a, hy5b, hy6a, hy6b, hy1⟩ := hy
  simp only [keyGT] at h
  simp only [comb]
  have e26 : (2:Int) ^ 26 = 67108864 := by norm_num
  have e25 : (2:Int) ^ 25 = 33554432 := by norm_num
  have e22 : (2:Int) ^ 22 = 4194304 := by norm_num
  have e12 : (2:Int) ^ 12 = 4096 := by norm_num
  have e6 : (2:Int) ^ 6 = 64 := by norm_num
  rw [e26, e25, e22, e12, e6]
  rcases h with h | ⟨e1, h | ⟨e2, h | ⟨e3, h | ⟨e4, h | ⟨e5, h⟩⟩⟩⟩⟩ <;> omega

theorem keyGT_trichotomy (x y : Int × Int × Int × Int × Int × Int) :
    keyGT x y ∨ x = y ∨ keyGT y x := by
  obtain ⟨x1, x2, x3, x4, x5, x6⟩ := x
  obtain ⟨y1, y2, y3, y4, y5, y6⟩ := y
  simp only [keyGT, Prod.mk.injEq]
  omega

/-- C2: on a `ChessLike` position, for any two legal moves `a`, `b` the
packed integers compare as `_score_move b < _score_move a` exactly when the
signal tuple (promotion value, capture flag, pawn-exposure tier,
positional delta, destination square, source square) of `a` is
lexicographically greater than that of `b`; in particular a move promoting
to a strictly higher-ranked piece always outranks a non-promotion or
lower-ranked-promotion move, regardless of positional delta. -/
theorem C2_score_move_lex {B : Type} (g : GameAPI B) (hg : ChessLike g) (b : B)
    (a m2 : ChessMove) (ha : a ∈ g.legalMoves b) (hm2 : m2 ∈ g.legalMoves b) :
    (score_move g b m2 < score_move g b a ↔ keyGT (moveKey g b a) (moveKey g b m2)) ∧
    (promoVal m2 < promoVal a → score_move g b m2 < score_move g b a) := by
  have bxa := moveKey_bounds g hg b a ha
  have bxm := moveKey_bounds g hg b m2 hm2
  have iff1 : score_move g b m2 < score_move g b a ↔
      keyGT (moveKey g b a) (moveKey g b m2) := by
    constructor
    · intro hlt
      rcases keyGT_trichotomy (moveKey g b a) (moveKey g b m2) with h | h | h
      · exact h
      · exfalso
        rw [score_move_eq_comb g b a, score_move_eq_comb g b m2, h] at hlt
        exact lt_irrefl _ hlt
      · exfalso
        have hc := comb_lt_of_keyGT _ _ bxm bxa h
        rw [score_move_eq_comb g b a, score_move_eq_comb g b m2] at hlt
        omega
    · intro h
      rw [score_move_eq_comb g b a, score_move_eq_comb g b m2]
      exact comb_lt_of_keyGT _ _ bxa bxm h
  refine ⟨iff1, fun hp => ?_⟩
  apply iff1.mpr
  exact Or.inl (show ((promoVal m2 : Int) < (promoVal a : Int)) from by exact_mod_cast hp)

/-- Witness for C2 at position `0` of `tg` with its two legal moves. -/
theorem C2_score_move_lex_witness :
    (score_move tg 0 mB < score_move tg 0 mA ↔ keyGT (moveKey tg 0 mA) (moveKey tg 0 mB)) ∧
    (promoVal mB < promoVal mA → score_move tg 0 mB < score_move tg 0 mA) :=
  C2_score_move_lex tg (by decide) 0 mA mB (by decide) (by decide)

/-- On a `ChessLike` position, distinct legal moves never have equal packed
scores: the packed integer determines destination, source and promotion. -/
theorem score_move_inj {B : Type} (g : GameAPI B) (hg : ChessLike g) (b : B)
    (a m2 : ChessMove) (ha : a ∈ g.legalMoves b) (hm2 : m2 ∈ g.legalMoves b)
    (he : score_move g b a = score_move g b m2) : a = m2 := by
  have bxa := moveKey_bounds g hg b a ha
  have bxm := moveKey_bounds g hg b m2 hm2
  rcases keyGT_trichotomy (moveKey g b a) (moveKey g b m2) with h | h | h
  · have hc := comb_lt_of_keyGT _ _ bxa bxm h
    rw [score_move_eq_comb g b a, score_move_eq_comb g b m2] at he
    omega
  · have h1 : (promoVal a : Int) = promoVal m2 := congrArg Prod.fst h
    have h5 : (a.toSq : Int) = m2.toSq := congrArg (fun t => t.2.2.2.2.1) h
    have h6 : (a.fromSq : Int) = m2.fromSq := congrArg (fun t => t.2.2.2.2.2) h
    obtain ⟨-, -, -, -, -, hpa0⟩ := hg b a ha
    obtain ⟨-, -, -, -, -, hpm0⟩ := hg b m2 hm2
    have hto : a.toSq = m2.toSq := by exact_mod_cast h5
    have hfrom : a.fromSq = m2.fromSq := by exact_mod_cast h6
    have hpv : promoVal a = promoVal m2 := by exact_mod_cast h1
    have hpromo : a.promotion = m2.promotion := by
      unfold promoVal at hpv
      rcases hA : a.promotion with - | k <;> rcases hM : m2.promotion with - | k2
      · rfl
      · exfalso
        rw [hA, hM] at hpv
        simp only [Option.getD_none, Option.getD_some] at hpv
        exact hpm0 (by rw [hM, ← hpv])
      · exfalso
        rw [hA, hM] at hpv
        simp only [Option.getD_none, Option.getD_some] at hpv
        exact hpa0 (by rw [hA, hpv])
      · rw [hA, hM] at hpv
        simp only [Option.getD_some] at hpv
        rw [hpv]
    cases a with
    | mk f1 t1 p1 =>
      cases m2 with
      | mk f2 t2 p2 =>
        simp only [ChessMove.mk.injEq]
        exact ⟨hfrom, hto, hpromo⟩
  · have hc := comb_lt_of_keyGT _ _ bxm bxa h
    rw [score_move_eq_comb g b a, score_move_eq_comb g b m2] at he
    omega

theorem insertDesc_perm (key : ChessMove → Int) (m : ChessMove) :
    ∀ l : List ChessMove, (insertDesc key m l).Perm (m :: l) := by
  intro l
  induction l with
  | nil => simp [insertDesc]
  | cons x xs ih =>
    simp only [insertDesc]
    split
    · exact List.Perm.refl _
    · exact (List.Perm.cons x ih).trans (List.Perm.swap m x xs)

theorem sortDesc_perm (key : ChessMove → Int) :
    ∀ l : List ChessMove, (sortDesc key l).Perm l := by
  intro l
  induction l with
  | nil => exact List.Perm.refl _
  | cons x xs ih =>
    simp only [sortDesc]
    exact (insertDesc_perm key x (sortDesc key xs)).trans (List.Perm.cons x ih)

theorem sortDesc_head_max (key : ChessMove → Int) :
    ∀ (l : List ChessMove) (m0 : ChessMove) (t : List ChessMove),
      sortDesc key l = m0 :: t → ∀ x ∈ l, key x ≤ key m0 := by
  intro l
  induction l with
  | nil => intro m0 t h; simp [sortDesc] at h
  | cons a l ih =>
    intro m0 t h x hx
    simp only [sortDesc] at h
    rcases hs : sortDesc key l with - | ⟨h0, t0⟩
    · have hp := sortDesc_perm key l
      rw [hs] at hp
      have hl : l = [] := List.nil_perm.mp hp
      subst hl
      rw [hs] at h
      simp only [insertDesc] at h
      injection h with h1 h2
      rcases List.mem_cons.mp hx with rfl | hx0
      · rw [h1]
      · exact absurd hx0 (List.not_mem_nil _)
    · rw [hs] at h
      simp only [insertDesc] at h
      by_cases hcmp : key h0 ≤ key a
      · rw [if_pos hcmp] at h
        injection h with h1 h2
        subst h1
        rcases List.mem_cons.mp hx with rfl | hx0
        · exact le_refl _
        · exact le_trans (ih h0 t0 hs x hx0) hcmp
      · rw [if_neg hcmp] at h
        injection h with h1 h2
        subst h1
        rcases List.mem_cons.mp hx with rfl | hx0
        · exact le_of_lt (not_le.mp hcmp)
        · exact ih h0 t0 hs x hx0

/-- C3: in heuristic single-ply mode (configured depth `-1`), on a position
with at least one legal move the chosen move is a maximal-scoring legal
move, and no move occurring after it in the legal-move enumeration ties
with it — it is the latest tied maximal move.  (On a `ChessLike` game
distinct legal moves never tie, so the unique maximum is at once the
earliest and the latest tied move.) -/
theorem C3_heuristic_choice {B : Type} (g : GameAPI B) (hg : ChessLike g) (b : B)
    (hne : g.legalMoves b ≠ []) (hnd : (g.legalMoves b).Nodup) (ridx : Nat) (c : Nat) :
    ∃ (m : ChessMove) (l1 l2 : List ChessMove),
      (controllerSearch g false (-1) ridx b c).1 = Except.ok (some m) ∧
      g.legalMoves b = l1 ++ m :: l2 ∧
      (∀ x ∈ g.legalMoves b, score_move g b x ≤ score_move g b m) ∧
      (∀ x ∈ l2, score_move g b x < score_move g b m) := by
  rcases hs : sortDesc (fun m => score_move g b m) (g.legalMoves b) with - | ⟨m, t⟩
  · exfalso
    have hp := sortDesc_perm (fun m => score_move g b m) (g.legalMoves b)
    rw [hs] at hp
    exact hne (List.nil_perm.mp hp)
  · have hp := sortDesc_perm (fun m => score_move g b m) (g.legalMoves b)
    rw [hs] at hp
    have hmem : m ∈ g.legalMoves b := hp.subset (List.mem_cons_self _ _)
    have hmax : ∀ x ∈ g.legalMoves b, score_move g b x ≤ score_move g b m :=
      sortDesc_head_max _ _ m t hs
    obtain ⟨l1, l2, hsplit⟩ := List.append_of_mem hmem
    refine ⟨m, l1, l2, ?_, hsplit, hmax, ?_⟩
    · simp [controllerSearch, hs]
    · intro x hx2
      have hxl : x ∈ g.legalMoves b := by
        rw [hsplit]
        exact List.mem_append_right _ (List.mem_cons_of_mem _ hx2)
      rcases lt_or_eq_of_le (hmax x hxl) with hlt | heq
      · exact hlt
      · exfalso
        have hxm : x = m := score_move_inj g hg b x m hxl hmem heq
        rw [hsplit] at hnd
        have hnm : m ∉ l2 :=
          (List.nodup_cons.mp (List.Nodup.of_append_right hnd)).1
        exact hnm (hxm ▸ hx2)

/-- Witness for C3 at position `0` of `tg` (two distinct-score legal
moves). -/
theorem C3_heuristic_choice_witness :
    ∃ (m : ChessMove) (l1 l2 : List ChessMove),
      (controllerSearch tg false (-1) 0 0 0).1 = Except.ok (some m) ∧
      tg.legalMoves 0 = l1 ++ m :: l2 ∧
      (∀ x ∈ tg.legalMoves 0, score_move tg 0 x ≤ score_move tg 0 m) ∧
      (∀ x ∈ l2, score_move tg 0 x < score_move tg 0 m) :=
  C3_heuristic_choice tg (by decide) 0 (by decide) (by decide) 0 0

/-- C5: `_score_board` returns the `−∞` sentinel when the position has no
legal moves and otherwise the maximum `_score_move` value over the legal
moves (an attained upper bound); on a `ChessLike` game no legal move's
score ever equals either infinity sentinel. -/
theorem C5_score_board_max {B : Type} (g : GameAPI B) (b : B) :
    (g.legalMoves b = [] → score_board g b = NEG_INF) ∧
    (g.legalMoves b ≠ [] →
      (∀ m ∈ g.legalMoves b, score_move g b m ≤ score_board g b) ∧
      ∃ m ∈ g.legalMoves b, score_board g b = score_move g b m) ∧
    (ChessLike g → ∀ m ∈ g.legalMoves b,
      score_move g b m ≠ INF ∧ score_move g b m ≠ NEG_INF) := by
  refine ⟨?_, ?_, ?_⟩
  · intro h
    simp [score_board, h]
  · intro hne
    rcases h : g.legalMoves b with - | ⟨m0, rest⟩
    · exact absurd h hne
    · rw [score_board_eq_vfold g b m0 rest h]
      constructor
      · intro m hm
        rcases List.mem_cons.mp hm with rfl | hm0
        · exact vfold_init_le _ _ _
        · exact vfold_mem_le _ _ _ hm0
      · rcases vfold_attained (score_move g b) rest (score_move g b m0) with ha | ⟨x, hx, hex⟩
        · exact ⟨m0, List.mem_cons_self _ _, ha⟩
        · exact ⟨x, List.mem_cons_of_mem _ hx, hex⟩
  · intro hg m hm
    obtain ⟨hlt1, hlt2⟩ := score_move_range g hg b m hm
    exact ⟨ne_of_lt hlt2, ne_of_gt hlt1⟩

/-- Witness for C5: the moveless position `2` of `tg` scores `−∞`; at
position `0` the score of `mA` is bounded by the board score and differs
from both sentinels. -/
theorem C5_score_board_max_witness :
    score_board tg 2 = NEG_INF ∧
    score_move tg 0 mA ≤ score_board tg 0 ∧
    (score_move tg 0 mA ≠ INF ∧ score_move tg 0 mA ≠ NEG_INF) :=
  ⟨(C5_score_board_max tg 2).1 (by decide),
   ((C5_score_board_max tg 0).2.1 (by decide)).1 mA (by decide),
   (C5_score_board_max tg 0).2.2 (by decide) mA (by decide)⟩
